import Mathlib

/-!
Shallow embedding of the uncle-bob checker core (checker/checker.go and
checker/helpers.go): the level assigner `SetUniqueLevels` and the layer-rule
violation detector `CheckLevels`, together with the path classifier helpers
they use.  Go maps are embedded as association lists carrying one concrete
iteration order (Go map iteration order is unspecified; every map loop below
follows the list order).  Go map reads of missing keys yield the zero value,
embedded with explicit defaults.
-/

/-- Go `PackageInfo` (checker.go): import path, source files, intra-module
imports, and a level field that the analyzed functions never read. -/
structure PackageInfo where
  path : String
  files : List String := []
  imports : List String := []
  level : Nat := 0
deriving DecidableEq

/-- A Go `map[string]PackageInfo` together with one concrete iteration order. -/
abbrev PackageMap := List (String × PackageInfo)

/-- The Go zero value of `PackageInfo`, returned by map reads of missing keys. -/
def emptyInfo : PackageInfo := { path := "" }

/-- Go map read `packageMap[pkg]` (zero value when the key is absent). -/
def findPkg : PackageMap → String → PackageInfo
  | [], _ => emptyInfo
  | (k, info) :: rest, p => if k = p then info else findPkg rest p

/-- Keys of the package map. -/
def keysOf (m : PackageMap) : List String := m.map Prod.fst

/-- ASCII double quote, the cutset of the Go calls `strings.Trim(s, "\x22")`. -/
def quoteChar : Char := Char.ofNat 34

/-- strings.Trim with the double-quote cutset, on the character list:
drop a run of quotes from the front and from the back. -/
def trimCharsL (l : List Char) : List Char :=
  (((l.dropWhile (fun c => c == quoteChar)).reverse).dropWhile (fun c => c == quoteChar)).reverse

/-- strings.Trim(s, double quote). -/
def trimQuotes (s : String) : String := ⟨trimCharsL s.data⟩

/-- Does the first character list begin with the second one? -/
def startsWithL : List Char → List Char → Bool
  | _, [] => true
  | [], _ :: _ => false
  | c :: t, d :: u => c == d && startsWithL t u

/-- strings.HasSuffix. -/
def strEndsWith (s suf : String) : Bool := startsWithL s.data.reverse suf.data.reverse

/-- Does the second character list occur inside the first one? -/
def hasSubL : List Char → List Char → Bool
  | [], sub => startsWithL [] sub
  | c :: t, sub => startsWithL (c :: t) sub || hasSubL t sub

/-- strings.Contains. -/
def strContains (s sub : String) : Bool := hasSubL s.data sub.data

/-- strings.Count(s, "/") for the single-character separator. -/
def countSlash (s : String) : Nat := (s.data.filter (fun c => c == '/')).length

/-- utilityPathPatterns (checker.go): path markers of utility/shared libraries. -/
def utilityPathPatterns : List String := ["utilities", "common", "pkg", "shared", "lib"]

/-- isUtilityPackage (checker.go): the trimmed path contains some pattern as a
full path segment. -/
def isUtilityPackage (packagePath : String) : Bool :=
  let p := trimQuotes packagePath
  utilityPathPatterns.any (fun pat => strContains p ("/" ++ pat ++ "/"))

/-- isEntryPointPackage (checker.go): root/main package or a cmd-style segment. -/
def isEntryPointPackage (packagePath : String) : Bool :=
  let p := trimQuotes packagePath
  strEndsWith p "/." || strEndsWith p "/main" || strContains p "/cmd/"

/-- getPackageDepth (checker.go): slash count of the trimmed path, plus one for
utility packages. -/
def getPackageDepth (packagePath : String) : Nat :=
  let p := trimQuotes packagePath
  if isUtilityPackage p then countSlash p + 1 else countSlash p

/-- Level map `packageLevels` as an association list with unique keys; a Go map
assignment replaces the binding in place or appends a fresh one. -/
def setLevel : List (String × Nat) → String → Nat → List (String × Nat)
  | [], k, v => [(k, v)]
  | (k', v') :: rest, k, v => if k' = k then (k', v) :: rest else (k', v') :: setLevel rest k v

/-- Go two-valued map read `level, exists := packageLevels[p]`. -/
def getLevel? : List (String × Nat) → String → Option Nat
  | [], _ => none
  | (k, v) :: rest, p => if k = p then some v else getLevel? rest p

/-- contains(packageDetails.Imports, path) over the whole map: is the path
mentioned in any package's imports? -/
def mentionedInImports (m : PackageMap) (path : String) : Bool :=
  m.any (fun kv => decide (path ∈ kv.2.imports))

/-- topLevelPackages (checker.go): the Path fields of packages not mentioned in
any package's imports, in map iteration order. -/
def rootPaths (m : PackageMap) : List String :=
  (m.filter (fun kv => !(mentionedInImports m kv.2.path))).map (fun kv => kv.2.path)

/-- The BFS working state of SetUniqueLevels: packageLevels, packagesVisited and
the FIFO queue. -/
structure BfsState where
  levels : List (String × Nat)
  visited : List String
  queue : List String
deriving DecidableEq

/-- Initial levels: every root path is assigned level 0. -/
def initLevels (m : PackageMap) : List (String × Nat) :=
  (rootPaths m).foldl (fun lv p => setLevel lv p 0) []

/-- Initial BFS state: roots are pre-visited and seed the queue. -/
def initState (m : PackageMap) : BfsState :=
  { levels := initLevels m, visited := rootPaths m, queue := rootPaths m }

/-- The inner loop of the BFS over `packageMap[current].Imports`: raise the
import's level to currentLevel+1 when absent or smaller, and enqueue it if it
was not visited yet. -/
def processImports (currentLevel : Nat) : List String → BfsState → BfsState
  | [], st => st
  | imp :: rest, st =>
    let lv :=
      match getLevel? st.levels imp with
      | none => setLevel st.levels imp (currentLevel + 1)
      | some l => if l < currentLevel + 1 then setLevel st.levels imp (currentLevel + 1) else st.levels
    if imp ∈ st.visited then
      processImports currentLevel rest { levels := lv, visited := st.visited, queue := st.queue }
    else
      processImports currentLevel rest { levels := lv, visited := st.visited ++ [imp], queue := st.queue ++ [imp] }

/-- The BFS loop `for len(queue) > 0` of SetUniqueLevels, with explicit fuel.
A node is enqueued only when first visited, so the loop dequeues at most
`initial queue length + number of import occurrences` nodes; `SetUniqueLevels`
passes that much fuel and the completion theorem shows the queue empties. -/
def bfsAux (m : PackageMap) : Nat → BfsState → BfsState
  | 0, st => st
  | fuel + 1, st =>
    match st.queue with
    | [] => st
    | current :: rest =>
      bfsAux m fuel (processImports ((getLevel? st.levels current).getD 0)
        (findPkg m current).imports { levels := st.levels, visited := st.visited, queue := rest })

/-- All import occurrences of the map, concatenated. -/
def importsUniverse : PackageMap → List String
  | [] => []
  | kv :: t => kv.2.imports ++ importsUniverse t

/-- Fuel sufficient to run the BFS to completion. -/
def bfsFuel (m : PackageMap) : Nat := (initState m).queue.length + (importsUniverse m).length

/-- The completed BFS run of SetUniqueLevels. -/
def runBfs (m : PackageMap) : BfsState := bfsAux m (bfsFuel m) (initState m)

/-- The provisional levels at the end of the BFS phase. -/
def bfsLevels (m : PackageMap) : List (String × Nat) := (runBfs m).levels

/-- Second phase of SetUniqueLevels: raise a package's level to its structural
depth when the depth exceeds it. -/
def adjustLevels (lv : List (String × Nat)) : List (String × Nat) :=
  lv.map (fun kv => if getPackageDepth kv.1 > kv.2 then (kv.1, getPackageDepth kv.1) else kv)

/-- The final per-package levels of SetUniqueLevels. -/
def adjustedLevels (m : PackageMap) : List (String × Nat) := adjustLevels (bfsLevels m)

/-- The `maxLevel` loop of SetUniqueLevels. -/
def maxFold : List (String × Nat) → Nat → Nat
  | [], acc => acc
  | kv :: t, acc => maxFold t (if kv.2 > acc then kv.2 else acc)

/-- Maximum assigned level (0 on an empty level map). -/
def maxLevelOf (lv : List (String × Nat)) : Nat := maxFold lv 0

/-- The packages of one level, in level-map iteration order (the
`packagesByLevel` append loop of SetUniqueLevels). -/
def levelGroup : List (String × Nat) → Nat → List String
  | [], _ => []
  | (k, v) :: t, l => if v = l then k :: levelGroup t l else levelGroup t l

/-- Partition construction of SetUniqueLevels: group by level 0..maxLevel and
drop empty levels. -/
def buildPartition (lv : List (String × Nat)) : List (List String) :=
  ((List.range (maxLevelOf lv + 1)).map (levelGroup lv)).filter (fun g => !g.isEmpty)

/-- SetUniqueLevels (checker.go): root detection, BFS level propagation,
structural-depth override, and partition construction. -/
def SetUniqueLevels (m : PackageMap) : List (List String) := buildPartition (adjustedLevels m)

/-- ASCII single quote, used by the Go suggestion format strings. -/
def squo : String := String.singleton (Char.ofNat 39)

/-- Violation message of strict mode. -/
def strictMessage : String := "Only one level inward importing is allowed"

/-- Violation message of lenient mode. -/
def lenientMessage : String := "Importing a package of the same level is not allowed"

/-- One violation produced by CheckLevels.  The Go code keeps only the formatted
text (a clog.CheckResult warning); the record keeps the components that text is
built from, and `Violation.format` rebuilds the exact text used for output and
deduplication. -/
structure Violation where
  message : String
  fromLevel : Nat
  fromPath : String
  toLevel : Nat
  toPath : String
  suggestion : String
deriving DecidableEq

/-- The errMsg of CheckLevels:
fmt.Sprintf of message, Lv i, fromPkg, Lv a, toPkg and the suggestion. -/
def Violation.format (v : Violation) : String :=
  v.message ++ "\nLv" ++ toString v.fromLevel ++ ": " ++ v.fromPath ++ " <-- Lv" ++
    toString v.toLevel ++ ": " ++ v.toPath ++ "\nSuggestion: " ++ v.suggestion

/-- One candidate case of the innermost CheckLevels loop body: for importer pkg
at level index i and import target looked up at level index a, decide the mode's
violation condition and build the violation record.  Go evaluates `i-1 != a` on
ints, embedded here over Int (at i = 0 the left side is -1). -/
def mkViolation (pm : PackageMap) (part : List (List String)) (strict : Bool)
    (i : Nat) (pkg target : String) (a : Nat) : Option Violation :=
  let fromPkg := trimQuotes (findPkg pm pkg).path
  let toPkg := trimQuotes target
  match strict with
  | true =>
    if target ∈ part.getD a [] ∧ (i : Int) - 1 ≠ (a : Int) then
      some { message := strictMessage, fromLevel := i, fromPath := fromPkg,
             toLevel := a, toPath := toPkg,
             suggestion :=
               if i ≤ a then
                 "Consider moving " ++ squo ++ toPkg ++ squo ++ " to a deeper level than " ++
                   squo ++ fromPkg ++ squo
               else
                 "Consider reorganizing layers to ensure " ++ squo ++ toPkg ++ squo ++
                   " is exactly one level below " ++ squo ++ fromPkg ++ squo }
    else none
  | false =>
    if target ∈ part.getD a [] ∧ i ≤ a then
      some { message := lenientMessage, fromLevel := i, fromPath := fromPkg,
             toLevel := a, toPath := toPkg,
             suggestion :=
               if isUtilityPackage target then
                 squo ++ toPkg ++ squo ++ " appears to be a utility package. Consider moving it to a deeper level"
               else
                 "Consider moving " ++ squo ++ toPkg ++ squo ++ " to a deeper level than " ++
                   squo ++ fromPkg ++ squo }
    else none

/-- Level indices i, i-1, ..., 0 and (for the whole detector) len-1, ..., 0. -/
def descRange (n : Nat) : List Nat := (List.range n).reverse

/-- The `for a := i; a >= 0; a--` scan of CheckLevels for one (pkg, target)
pair.  A fresh violation is appended and the scan stops (the Go break sits
inside the not-yet-recorded branch); a duplicate of an already recorded
formatted text is skipped and the scan continues (containsInCheckResults,
helpers.go). -/
def scanTarget (pm : PackageMap) (part : List (List String)) (strict : Bool)
    (i : Nat) (pkg target : String) : List Nat → List Violation → List Violation
  | [], acc => acc
  | a :: rest, acc =>
    match mkViolation pm part strict i pkg target a with
    | none => scanTarget pm part strict i pkg target rest acc
    | some v =>
      if acc.any (fun r => r.format == v.format) then
        scanTarget pm part strict i pkg target rest acc
      else acc ++ [v]

/-- Loop over `packageMap[pkg].Imports`. -/
def checkImports (pm : PackageMap) (part : List (List String)) (strict : Bool)
    (i : Nat) (pkg : String) : List String → List Violation → List Violation
  | [], acc => acc
  | target :: rest, acc =>
    checkImports pm part strict i pkg rest
      (scanTarget pm part strict i pkg target (descRange (i + 1)) acc)

/-- Loop over the packages of level i; entry-point packages are skipped. -/
def checkPkgs (pm : PackageMap) (part : List (List String)) (strict : Bool)
    (i : Nat) : List String → List Violation → List Violation
  | [], acc => acc
  | pkg :: rest, acc =>
    if isEntryPointPackage pkg then checkPkgs pm part strict i rest acc
    else checkPkgs pm part strict i rest
      (checkImports pm part strict i pkg (findPkg pm pkg).imports acc)

/-- Loop over level indices, deepest first. -/
def checkLoop (pm : PackageMap) (part : List (List String)) (strict : Bool) :
    List Nat → List Violation → List Violation
  | [], acc => acc
  | i :: rest, acc =>
    checkLoop pm part strict rest (checkPkgs pm part strict i (part.getD i []) acc)

/-- CheckLevels (checker.go): walk the partition from the deepest level down to
level 0 and collect deduplicated violations. -/
def CheckLevels (pm : PackageMap) (part : List (List String)) (strict : Bool) :
    List Violation :=
  checkLoop pm part strict (descRange part.length) []

/-- Number of partition levels containing a path. -/
def levelsContaining (part : List (List String)) (p : String) : Nat :=
  (part.filter (fun g => decide (p ∈ g))).length

/-- Index of the first partition level containing a path. -/
def levelIdxAux (p : String) : List (List String) → Nat → Option Nat
  | [], _ => none
  | g :: rest, n => if p ∈ g then some n else levelIdxAux p rest (n + 1)

/-- Level index of a path in a partition. -/
def levelIdx? (part : List (List String)) (p : String) : Option Nat :=
  levelIdxAux p part 0

/-- Modelled from the words of claim C7 (a behavior the code does not have):
a scan that stops on the first duplicate match and keeps scanning shallower
levels after appending a fresh violation. -/
def scanTargetClaim (pm : PackageMap) (part : List (List String)) (strict : Bool)
    (i : Nat) (pkg target : String) : List Nat → List Violation → List Violation
  | [], acc => acc
  | a :: rest, acc =>
    match mkViolation pm part strict i pkg target a with
    | none => scanTargetClaim pm part strict i pkg target rest acc
    | some v =>
      if acc.any (fun r => r.format == v.format) then acc
      else scanTargetClaim pm part strict i pkg target rest (acc ++ [v])

/-- The C7-claimed detector: CheckLevels with the claimed scan rule. -/
def checkImportsClaim (pm : PackageMap) (part : List (List String)) (strict : Bool)
    (i : Nat) (pkg : String) : List String → List Violation → List Violation
  | [], acc => acc
  | target :: rest, acc =>
    checkImportsClaim pm part strict i pkg rest
      (scanTargetClaim pm part strict i pkg target (descRange (i + 1)) acc)

/-- Level-i package loop of the C7-claimed detector. -/
def checkPkgsClaim (pm : PackageMap) (part : List (List String)) (strict : Bool)
    (i : Nat) : List String → List Violation → List Violation
  | [], acc => acc
  | pkg :: rest, acc =>
    if isEntryPointPackage pkg then checkPkgsClaim pm part strict i rest acc
    else checkPkgsClaim pm part strict i rest
      (checkImportsClaim pm part strict i pkg (findPkg pm pkg).imports acc)

/-- Level loop of the C7-claimed detector. -/
def checkLoopClaim (pm : PackageMap) (part : List (List String)) (strict : Bool) :
    List Nat → List Violation → List Violation
  | [], acc => acc
  | i :: rest, acc =>
    checkLoopClaim pm part strict rest (checkPkgsClaim pm part strict i (part.getD i []) acc)

/-- CheckLevels as described by claim C7. -/
def CheckLevelsClaim (pm : PackageMap) (part : List (List String)) (strict : Bool) :
    List Violation :=
  checkLoopClaim pm part strict (descRange part.length) []

/-- C1 input: a structurally deep importer of a shallow target. -/
def cex1Map : PackageMap :=
  [("m/a/b", { path := "m/a/b", imports := ["m/x"] }),
   ("m/x", { path := "m/x" })]

/-- C2 input: a two-cycle unreachable from any root. -/
def cycMap : PackageMap :=
  [("m/a", { path := "m/a", imports := ["m/b"] }),
   ("m/b", { path := "m/b", imports := ["m/a"] })]

/-- C3 input: the spec's concrete scenario C graph. -/
def scenMap : PackageMap :=
  [("mod/main", { path := "mod/main", imports := ["mod/util"] }),
   ("mod/util", { path := "mod/util" })]

/-- C3 partition as the scenario's premise describes it: main at the shallowest
surviving level, util two raw levels deeper (the empty level is omitted). -/
def scenPartition : List (List String) := [["mod/main"], ["mod/util"]]

/-- C5 input, first map entry. -/
def permEntryR1 : String × PackageInfo := ("m/r1", { path := "m/r1", imports := ["m/a"] })

/-- C5 input, second map entry. -/
def permEntryR2 : String × PackageInfo := ("m/r2", { path := "m/r2", imports := ["m/c"] })

/-- C5 input, shared tail of both enumeration orders. -/
def permRest : PackageMap :=
  [("m/a", { path := "m/a", imports := ["m/d"] }),
   ("m/c", { path := "m/c", imports := ["m/a"] }),
   ("m/d", { path := "m/d" })]

/-- C5 input in one enumeration order. -/
def permMapA : PackageMap := permEntryR1 :: permEntryR2 :: permRest

/-- C5 input in the other enumeration order (the first two entries swapped). -/
def permMapB : PackageMap := permEntryR2 :: permEntryR1 :: permRest

/-- C6 input: one package importing a dangling path. -/
def danglingMap : PackageMap := [("m/a", { path := "m/a", imports := ["m/b"] })]

/-- C7 input: importer whose target sits at two distinct shallower levels. -/
def dupScanMap : PackageMap := [("m/p", { path := "m/p", imports := ["m/t"] })]

/-- C7 partition: the target appears at levels 0 and 1, the importer at level 3. -/
def dupScanPartition : List (List String) := [["m/t"], ["m/t"], ["m/z"], ["m/p"]]

/-- C8 input: a node whose Path field is an entry-point path under a
non-entry-point key. -/
def mismatchMap : PackageMap := [("m/x", { path := "m/main", imports := ["m/x"] })]

/-- C8 partition for the mismatched map. -/
def mismatchPartition : List (List String) := [["m/x"]]

/-- The back-trim half of strings.Trim. -/
def backTrim (p : Char → Bool) (l : List Char) : List Char :=
  (l.reverse.dropWhile p).reverse
/-- Keys of a level map. -/
def levelKeys (lv : List (String × Nat)) : List String := lv.map Prod.fst
/-- Count of universe entries not yet visited. -/
def countFresh (uni vis : List String) : Nat :=
  (uni.filter (fun x => decide (¬ x ∈ vis))).length


/-! Basic lemmas about the string helpers. -/

theorem dropWhile_idem (p : Char → Bool) (l : List Char) :
    (l.dropWhile p).dropWhile p = l.dropWhile p := by
  induction l with
  | nil => rfl
  | cons c t ih =>
    by_cases h : p c = true
    · simp [List.dropWhile, h, ih]
    · simp [List.dropWhile, h]

theorem dropWhile_append_self (p : Char → Bool) (l : List Char) :
    ∃ s, l = s ++ l.dropWhile p := by
  induction l with
  | nil => exact ⟨[], rfl⟩
  | cons c t ih =>
    by_cases h : p c = true
    · obtain ⟨s, hs⟩ := ih
      refine ⟨c :: s, ?_⟩
      simp [List.dropWhile, h]
      exact hs
    · exact ⟨[], by simp [List.dropWhile, h]⟩

theorem dropWhile_head_cases (p : Char → Bool) (l : List Char) :
    l.dropWhile p = [] ∨ ∃ c t, l.dropWhile p = c :: t ∧ p c = false := by
  induction l with
  | nil => exact Or.inl rfl
  | cons c t ih =>
    by_cases h : p c = true
    · simpa [List.dropWhile, h] using ih
    · exact Or.inr ⟨c, t, by simp [List.dropWhile, h], by simpa using h⟩

theorem dropWhile_of_head_false (p : Char → Bool) (l : List Char)
    (h : l = [] ∨ ∃ c t, l = c :: t ∧ p c = false) : l.dropWhile p = l := by
  rcases h with h | ⟨c, t, rfl, hc⟩
  · simp [h]
  · simp [List.dropWhile, hc]


theorem backTrim_self_append (p : Char → Bool) (l : List Char) :
    ∃ s, l = backTrim p l ++ s := by
  obtain ⟨s, hs⟩ := dropWhile_append_self p l.reverse
  refine ⟨s.reverse, ?_⟩
  calc l = l.reverse.reverse := (List.reverse_reverse l).symm
    _ = (s ++ l.reverse.dropWhile p).reverse := by rw [← hs]
    _ = backTrim p l ++ s.reverse := by simp [backTrim]

theorem backTrim_idem (p : Char → Bool) (l : List Char) :
    backTrim p (backTrim p l) = backTrim p l := by
  simp [backTrim, dropWhile_idem]

theorem backTrim_head_false (p : Char → Bool) (l : List Char)
    (h : l = [] ∨ ∃ c t, l = c :: t ∧ p c = false) :
    backTrim p l = [] ∨ ∃ c t, backTrim p l = c :: t ∧ p c = false := by
  rcases h with rfl | ⟨c, t, rfl, hc⟩
  · left; simp [backTrim]
  · rcases hb : backTrim p (c :: t) with _ | ⟨d, u⟩
    · exact Or.inl rfl
    · obtain ⟨s, hs⟩ := backTrim_self_append p (c :: t)
      rw [hb] at hs
      right
      refine ⟨d, u, rfl, ?_⟩
      have : c = d := by
        have := hs
        simp at this
        exact this.1
      rw [← this]; exact hc

theorem trimCharsL_eq (l : List Char) :
    trimCharsL l = backTrim (fun c => c == quoteChar) (l.dropWhile (fun c => c == quoteChar)) := by
  rfl

theorem trimCharsL_idem (l : List Char) : trimCharsL (trimCharsL l) = trimCharsL l := by
  rw [trimCharsL_eq, trimCharsL_eq]
  set p : Char → Bool := fun c => c == quoteChar with hp
  have h1 : backTrim p (l.dropWhile p) = [] ∨
      ∃ c t, backTrim p (l.dropWhile p) = c :: t ∧ p c = false :=
    backTrim_head_false p _ (dropWhile_head_cases p l)
  rw [dropWhile_of_head_false p _ h1, backTrim_idem]

theorem trimQuotes_idem (s : String) : trimQuotes (trimQuotes s) = trimQuotes s := by
  unfold trimQuotes
  exact congrArg String.mk (trimCharsL_idem s.data)

theorem isEntryPointPackage_trim (s : String) :
    isEntryPointPackage (trimQuotes s) = isEntryPointPackage s := by
  unfold isEntryPointPackage
  rw [trimQuotes_idem]

theorem isEntryPointPackage_empty : isEntryPointPackage "" = false := by decide
/-! Lemmas about the level association list. -/


theorem levelKeys_cons (k : String) (v : Nat) (rest : List (String × Nat)) :
    levelKeys ((k, v) :: rest) = k :: levelKeys rest := rfl

theorem levelKeys_setLevel (lv : List (String × Nat)) (k : String) (v : Nat) :
    levelKeys (setLevel lv k v) =
      if k ∈ levelKeys lv then levelKeys lv else levelKeys lv ++ [k] := by
  induction lv with
  | nil => simp [setLevel, levelKeys]
  | cons kv rest ih =>
    obtain ⟨k', v'⟩ := kv
    by_cases h : k' = k
    · subst h
      simp [setLevel, levelKeys_cons]
    · have hne : ¬ k = k' := fun hh => h hh.symm
      simp only [setLevel, if_neg h, levelKeys_cons, List.mem_cons]
      rw [ih]
      by_cases hm : k ∈ levelKeys rest
      · simp [hm, hne]
      · simp [hm, hne]

theorem setLevel_nodupKeys (lv : List (String × Nat)) (k : String) (v : Nat)
    (h : (levelKeys lv).Nodup) : (levelKeys (setLevel lv k v)).Nodup := by
  rw [levelKeys_setLevel]
  by_cases hm : k ∈ levelKeys lv
  · simpa [hm] using h
  · simp only [if_neg hm]
    rw [List.nodup_append]
    exact ⟨h, List.nodup_singleton k, by simpa using hm⟩

theorem getLevel?_eq_some_mem (lv : List (String × Nat)) (p : String) (l : Nat)
    (h : getLevel? lv p = some l) : (p, l) ∈ lv := by
  induction lv with
  | nil => simp [getLevel?] at h
  | cons kv rest ih =>
    obtain ⟨k, v⟩ := kv
    by_cases hk : k = p
    · subst hk
      simp [getLevel?] at h
      simp [h]
    · simp [getLevel?, hk] at h
      exact List.mem_cons_of_mem _ (ih h)

theorem mem_getLevel?_isSome (lv : List (String × Nat)) (p : String) (l : Nat)
    (h : (p, l) ∈ lv) : (getLevel? lv p).isSome := by
  induction lv with
  | nil => simp at h
  | cons kv rest ih =>
    obtain ⟨k, v⟩ := kv
    by_cases hk : k = p
    · subst hk; simp [getLevel?]
    · rcases List.mem_cons.mp h with h1 | h2
      · exact absurd (congrArg Prod.fst h1).symm hk
      · simp only [getLevel?, if_neg hk]
        exact ih h2

theorem mem_getLevel?_of_nodup (lv : List (String × Nat)) (p : String) (l : Nat)
    (hnd : (levelKeys lv).Nodup) (h : (p, l) ∈ lv) : getLevel? lv p = some l := by
  induction lv with
  | nil => simp at h
  | cons kv rest ih =>
    obtain ⟨k, v⟩ := kv
    rw [levelKeys_cons] at hnd
    have hhead := (List.nodup_cons.mp hnd).1
    have htail := (List.nodup_cons.mp hnd).2
    by_cases hk : k = p
    · subst hk
      rcases List.mem_cons.mp h with h1 | h2
      · have hlv : l = v := by
          have := congrArg Prod.snd h1
          simpa using this
        subst hlv
        simp [getLevel?]
      · exfalso
        have : k ∈ levelKeys rest := by
          have := List.mem_map_of_mem Prod.fst h2
          simpa [levelKeys] using this
        exact hhead this
    · rcases List.mem_cons.mp h with h1 | h2
      · exact absurd (congrArg Prod.fst h1).symm hk
      · simp only [getLevel?, if_neg hk]
        exact ih htail h2

/-! The BFS measure: each dequeue step weakly decreases queue length plus the
count of not-yet-visited import occurrences, and strictly decreases it per
enqueue; this bounds the fuel the BFS loop needs. -/


theorem countFresh_cons (u : String) (t vis : List String) :
    countFresh (u :: t) vis = (if u ∈ vis then 0 else 1) + countFresh t vis := by
  unfold countFresh
  by_cases hu : u ∈ vis
  · simp [List.filter_cons, hu]
  · simp [List.filter_cons, hu]
    omega

theorem countFresh_append_le (t vis : List String) (x : String) :
    countFresh t (vis ++ [x]) ≤ countFresh t vis := by
  induction t with
  | nil => exact Nat.le_refl _
  | cons u s ih =>
    rw [countFresh_cons, countFresh_cons]
    by_cases hu : u ∈ vis
    · have h1 : u ∈ vis ++ [x] := List.mem_append_left _ hu
      rw [if_pos hu, if_pos h1]
      omega
    · by_cases hux : u = x
      · have h1 : u ∈ vis ++ [x] := by
          subst hux
          exact List.mem_append_right _ (by simp)
        rw [if_pos h1, if_neg hu]
        omega
      · have h1 : ¬ u ∈ vis ++ [x] := by
          intro hc
          rcases List.mem_append.mp hc with hc1 | hc2
          · exact hu hc1
          · exact hux (by simpa using hc2)
        rw [if_neg h1, if_neg hu]
        omega

theorem countFresh_strict (t vis : List String) (x : String)
    (hx : x ∈ t) (hv : ¬ x ∈ vis) :
    countFresh t (vis ++ [x]) + 1 ≤ countFresh t vis := by
  induction t with
  | nil => simp at hx
  | cons u s ih =>
    rw [countFresh_cons, countFresh_cons]
    by_cases hux : u = x
    · subst hux
      have h1 : u ∈ vis ++ [u] := List.mem_append_right _ (by simp)
      rw [if_pos h1, if_neg hv]
      have := countFresh_append_le s vis u
      omega
    · have hxs : x ∈ s := by
        rcases List.mem_cons.mp hx with h | h
        · exact absurd h.symm hux
        · exact h
      have hrec := ih hxs
      by_cases hu : u ∈ vis
      · have h1 : u ∈ vis ++ [x] := List.mem_append_left _ hu
        rw [if_pos hu, if_pos h1]
        omega
      · have h1 : ¬ u ∈ vis ++ [x] := by
          intro hc
          rcases List.mem_append.mp hc with hc1 | hc2
          · exact hu hc1
          · exact hux (by simpa using hc2)
        rw [if_neg h1, if_neg hu]
        omega

theorem findPkg_imports_sub (m : PackageMap) (s : String) :
    ∀ y ∈ (findPkg m s).imports, y ∈ importsUniverse m := by
  induction m with
  | nil => intro y hy; simp [findPkg, emptyInfo] at hy
  | cons kv t ih =>
    intro y hy
    obtain ⟨k, info⟩ := kv
    by_cases hk : k = s
    · simp only [findPkg, if_pos hk] at hy
      exact List.mem_append_left _ hy
    · simp only [findPkg, if_neg hk] at hy
      exact List.mem_append_right _ (ih y hy)

theorem processImports_measure (uni : List String) (cl : Nat) (imps : List String)
    (st : BfsState) (hsub : ∀ y ∈ imps, y ∈ uni) :
    (processImports cl imps st).queue.length + countFresh uni (processImports cl imps st).visited ≤
      st.queue.length + countFresh uni st.visited := by
  induction imps generalizing st with
  | nil => simp [processImports]
  | cons imp rest ih =>
    have hrest : ∀ y ∈ rest, y ∈ uni := fun y hy => hsub y (List.mem_cons_of_mem _ hy)
    by_cases hv : imp ∈ st.visited
    · simp only [processImports, if_pos hv]
      exact ih _ hrest
    · simp only [processImports, if_neg hv]
      refine le_trans (ih _ hrest) ?_
      simp only [List.length_append, List.length_singleton]
      have := countFresh_strict uni st.visited imp (hsub imp (List.mem_cons_self _ _)) hv
      omega

theorem bfsAux_done (m : PackageMap) (fuel : Nat) (st : BfsState) (h : st.queue = []) :
    bfsAux m fuel st = st := by
  cases fuel with
  | zero => rfl
  | succ n => simp only [bfsAux, h]

theorem bfsAux_complete (m : PackageMap) (fuel : Nat) (st : BfsState)
    (h : st.queue.length + countFresh (importsUniverse m) st.visited ≤ fuel) :
    (bfsAux m fuel st).queue = [] ∧
      ∀ extra, bfsAux m (fuel + extra) st = bfsAux m fuel st := by
  induction fuel generalizing st with
  | zero =>
    have hq : st.queue = [] :=
      List.length_eq_zero.mp (Nat.le_zero.mp (le_trans (Nat.le_add_right _ _) h))
    refine ⟨by rw [bfsAux_done m 0 st hq]; exact hq, ?_⟩
    intro extra
    rw [bfsAux_done m (0 + extra) st hq, bfsAux_done m 0 st hq]
  | succ n ih =>
    rcases hq : st.queue with _ | ⟨current, rest⟩
    · refine ⟨by rw [bfsAux_done m (n + 1) st hq]; exact hq, ?_⟩
      intro extra
      rw [bfsAux_done m (n + 1 + extra) st hq, bfsAux_done m (n + 1) st hq]
    · set st' := processImports ((getLevel? st.levels current).getD 0)
        (findPkg m current).imports { levels := st.levels, visited := st.visited, queue := rest } with hst'
      have hstep : bfsAux m (n + 1) st = bfsAux m n st' := by
        simp only [bfsAux, hq]
      have hm : st'.queue.length + countFresh (importsUniverse m) st'.visited ≤ n := by
        have hme := processImports_measure (importsUniverse m)
          ((getLevel? st.levels current).getD 0) (findPkg m current).imports
          { levels := st.levels, visited := st.visited, queue := rest }
          (findPkg_imports_sub m current)
        rw [← hst'] at hme
        simp only at hme
        have hlen : st.queue.length = rest.length + 1 := by rw [hq]; simp
        omega
      obtain ⟨hdone, hstable⟩ := ih st' hm
      refine ⟨by rw [hstep]; exact hdone, ?_⟩
      intro extra
      have hh : n + 1 + extra = (n + extra) + 1 := by omega
      rw [hh]
      have hstep2 : bfsAux m ((n + extra) + 1) st = bfsAux m (n + extra) st' := by
        simp only [bfsAux, hq]
      rw [hstep2, hstable extra, hstep]

/-! Unique keys are maintained throughout level assignment. -/

theorem processImports_nodupKeys (cl : Nat) (imps : List String) (st : BfsState)
    (h : (levelKeys st.levels).Nodup) :
    (levelKeys (processImports cl imps st).levels).Nodup := by
  induction imps generalizing st with
  | nil => simpa [processImports] using h
  | cons imp rest ih =>
    have hlv : ∀ lv', lv' = (match getLevel? st.levels imp with
        | none => setLevel st.levels imp (cl + 1)
        | some l => if l < cl + 1 then setLevel st.levels imp (cl + 1) else st.levels) →
        (levelKeys lv').Nodup := by
      intro lv' hdef
      rcases hg : getLevel? st.levels imp with _ | l
      · rw [hdef, hg]
        exact setLevel_nodupKeys _ _ _ h
      · rw [hdef, hg]
        by_cases hlt : l < cl + 1
        · simpa [hlt] using setLevel_nodupKeys st.levels imp (cl + 1) h
        · simpa [hlt] using h
    by_cases hv : imp ∈ st.visited
    · simp only [processImports, if_pos hv]
      exact ih _ (hlv _ rfl)
    · simp only [processImports, if_neg hv]
      exact ih _ (hlv _ rfl)

theorem bfsAux_nodupKeys (m : PackageMap) (fuel : Nat) (st : BfsState)
    (h : (levelKeys st.levels).Nodup) :
    (levelKeys (bfsAux m fuel st).levels).Nodup := by
  induction fuel generalizing st with
  | zero => simpa [bfsAux] using h
  | succ n ih =>
    rcases hq : st.queue with _ | ⟨current, rest⟩
    · simpa [bfsAux, hq] using h
    · simp only [bfsAux, hq]
      exact ih _ (processImports_nodupKeys _ _ _ h)

theorem initLevels_nodupKeys (m : PackageMap) : (levelKeys (initLevels m)).Nodup := by
  unfold initLevels
  generalize rootPaths m = ps
  have : ∀ (ps : List String) (lv : List (String × Nat)), (levelKeys lv).Nodup →
      (levelKeys (ps.foldl (fun lv p => setLevel lv p 0) lv)).Nodup := by
    intro ps
    induction ps with
    | nil => intro lv h; simpa using h
    | cons p rest ih =>
      intro lv h
      simp only [List.foldl_cons]
      exact ih _ (setLevel_nodupKeys _ _ _ h)
  exact this ps [] (by simp [levelKeys])

theorem bfsLevels_nodupKeys (m : PackageMap) : (levelKeys (bfsLevels m)).Nodup :=
  bfsAux_nodupKeys m _ _ (initLevels_nodupKeys m)

theorem levelKeys_adjustLevels (lv : List (String × Nat)) :
    levelKeys (adjustLevels lv) = levelKeys lv := by
  induction lv with
  | nil => rfl
  | cons kv rest ih =>
    obtain ⟨k, v⟩ := kv
    by_cases h : getPackageDepth k > v
    · simp only [adjustLevels, List.map_cons, if_pos h, levelKeys_cons] at *
      rw [ih]
    · simp only [adjustLevels, List.map_cons, if_neg h, levelKeys_cons] at *
      rw [ih]

theorem adjustedLevels_nodupKeys (m : PackageMap) : (levelKeys (adjustedLevels m)).Nodup := by
  unfold adjustedLevels
  rw [levelKeys_adjustLevels]
  exact bfsLevels_nodupKeys m

theorem adjustLevels_cons (k : String) (v : Nat) (rest : List (String × Nat)) :
    adjustLevels ((k, v) :: rest) =
      (if getPackageDepth k > v then (k, getPackageDepth k) else (k, v)) :: adjustLevels rest := by
  simp only [adjustLevels, List.map_cons]

/-- The structural override recomputed pointwise: the adjusted level of a key
is its BFS level raised to the structural depth when the depth is larger. -/
theorem getLevel?_adjustLevels (lv : List (String × Nat)) (p : String) :
    getLevel? (adjustLevels lv) p =
      (getLevel? lv p).map (fun v => if getPackageDepth p > v then getPackageDepth p else v) := by
  induction lv with
  | nil => rfl
  | cons kv rest ih =>
    obtain ⟨k, v⟩ := kv
    rw [adjustLevels_cons]
    by_cases h : getPackageDepth k > v
    · rw [if_pos h]
      by_cases hk : k = p
      · subst hk
        simp [getLevel?, h]
      · simp only [getLevel?, if_neg hk]
        exact ih
    · rw [if_neg h]
      by_cases hk : k = p
      · subst hk
        simp [getLevel?, h]
      · simp only [getLevel?, if_neg hk]
        exact ih

/-! Partition counting lemmas. -/

theorem maxFold_ge_acc (lv : List (String × Nat)) (acc : Nat) : acc ≤ maxFold lv acc := by
  induction lv generalizing acc with
  | nil => exact Nat.le_refl _
  | cons kv rest ih =>
    simp only [maxFold]
    by_cases h : kv.2 > acc
    · simp only [if_pos h]
      exact le_trans (Nat.le_of_lt h) (ih _)
    · simp only [if_neg h]
      exact ih _

theorem maxFold_bound (lv : List (String × Nat)) (acc : Nat) (p : String) (l : Nat)
    (h : (p, l) ∈ lv) : l ≤ maxFold lv acc := by
  induction lv generalizing acc with
  | nil => simp at h
  | cons kv rest ih =>
    obtain ⟨q, w⟩ := kv
    rcases List.mem_cons.mp h with h1 | h2
    · have hw : l = w := congrArg Prod.snd h1
      simp only [maxFold]
      have hsel : l ≤ (if w > acc then w else acc) := by
        rw [← hw] at *
        split <;> omega
      exact le_trans hsel (maxFold_ge_acc rest _)
    · simp only [maxFold]
      exact ih _ h2

theorem levelGroup_cons (k : String) (v : Nat) (rest : List (String × Nat)) (l : Nat) :
    levelGroup ((k, v) :: rest) l =
      if v = l then k :: levelGroup rest l else levelGroup rest l := rfl

theorem mem_levelGroup (lv : List (String × Nat)) (p : String) (l : Nat) :
    p ∈ levelGroup lv l ↔ (p, l) ∈ lv := by
  induction lv with
  | nil => simp [levelGroup]
  | cons kv rest ih =>
    obtain ⟨k, v⟩ := kv
    rw [levelGroup_cons]
    by_cases hv : v = l
    · subst hv
      rw [if_pos rfl]
      constructor
      · intro hm
        rcases List.mem_cons.mp hm with h1 | h2
        · subst h1
          exact List.mem_cons_self _ _
        · exact List.mem_cons_of_mem _ (ih.mp h2)
      · intro hm
        rcases List.mem_cons.mp hm with h1 | h2
        · have hpk : p = k := congrArg Prod.fst h1
          exact List.mem_cons.mpr (Or.inl hpk)
        · exact List.mem_cons_of_mem _ (ih.mpr h2)
    · rw [if_neg hv, ih]
      constructor
      · exact List.mem_cons_of_mem _
      · intro hm
        rcases List.mem_cons.mp hm with h1 | h2
        · exact absurd (congrArg Prod.snd h1).symm hv
        · exact h2

theorem filter_map_length {α β : Type} (f : α → β) (P : β → Bool) (xs : List α) :
    ((xs.map f).filter P).length = (xs.filter (fun x => P (f x))).length := by
  induction xs with
  | nil => rfl
  | cons x rest ih =>
    simp only [List.map_cons, List.filter_cons]
    by_cases h : P (f x) = true
    · simp [h, ih]
    · simp [h, ih]

theorem range_filter_none (n a : Nat) (h : n ≤ a) :
    (List.range n).filter (fun l => decide (l = a)) = [] := by
  induction n with
  | zero => rfl
  | succ k ih =>
    rw [List.range_succ, List.filter_append, ih (by omega)]
    have : k ≠ a := by omega
    simp [this]

theorem range_filter_one (n a : Nat) (h : a < n) :
    ((List.range n).filter (fun l => decide (l = a))).length = 1 := by
  induction n with
  | zero => omega
  | succ k ih =>
    rw [List.range_succ, List.filter_append, List.length_append]
    by_cases hk : a < k
    · have : k ≠ a := by omega
      rw [ih hk]
      simp [this]
    · have hak : a = k := by omega
      rw [range_filter_none k a (by omega)]
      simp [hak]

theorem range_filter_le_one (n a : Nat) :
    ((List.range n).filter (fun l => decide (l = a))).length ≤ 1 := by
  by_cases h : a < n
  · exact Nat.le_of_eq (range_filter_one n a h)
  · rw [range_filter_none n a (by omega)]
    exact Nat.zero_le 1

theorem levelsContaining_buildPartition (lv : List (String × Nat)) (p : String)
    (hnd : (levelKeys lv).Nodup) :
    levelsContaining (buildPartition lv) p ≤ 1 ∧
      ((getLevel? lv p).isSome → levelsContaining (buildPartition lv) p = 1) := by
  unfold levelsContaining buildPartition
  rw [List.filter_filter]
  have hcongr : ∀ g ∈ (List.range (maxLevelOf lv + 1)).map (levelGroup lv),
      (decide (p ∈ g) && !g.isEmpty) = decide (p ∈ g) := by
    intro g hg
    by_cases hpg : p ∈ g
    · have : g.isEmpty = false := by
        cases g with
        | nil => simp at hpg
        | cons a t => rfl
      simp [hpg, this]
    · simp [hpg]
  rw [List.filter_congr hcongr]
  rw [filter_map_length]
  rcases hlook : getLevel? lv p with _ | l0
  · have hnone : ∀ l, ¬ p ∈ levelGroup lv l := by
      intro l hmem
      have hm := (mem_levelGroup lv p l).mp hmem
      have hs := mem_getLevel?_isSome lv p l hm
      rw [hlook] at hs
      simp at hs
    have hempty : (List.range (maxLevelOf lv + 1)).filter
        (fun x => decide (p ∈ levelGroup lv x)) = [] := by
      apply List.filter_eq_nil_iff.mpr
      intro a _
      simp [hnone a]
    rw [hempty]
    exact ⟨Nat.zero_le 1, by intro hs; simp at hs⟩
  · have hmem0 : (p, l0) ∈ lv := getLevel?_eq_some_mem lv p l0 hlook
    have hiff : ∀ l, p ∈ levelGroup lv l ↔ l = l0 := by
      intro l
      rw [mem_levelGroup]
      constructor
      · intro hm
        have hlk := mem_getLevel?_of_nodup lv p l hnd hm
        rw [hlook] at hlk
        exact (Option.some_inj.mp hlk).symm
      · rintro rfl
        exact hmem0
    have heq : (List.range (maxLevelOf lv + 1)).filter (fun x => decide (p ∈ levelGroup lv x)) =
        (List.range (maxLevelOf lv + 1)).filter (fun l => decide (l = l0)) := by
      apply List.filter_congr
      intro a _
      by_cases h : a = l0
      · subst h
        simp [(hiff a).mpr rfl]
      · have hnm : ¬ p ∈ levelGroup lv a := fun hc => h ((hiff a).mp hc)
        simp [h, hnm]
    rw [heq]
    have hl0 : l0 < maxLevelOf lv + 1 := by
      have := maxFold_bound lv 0 p l0 hmem0
      unfold maxLevelOf
      omega
    exact ⟨range_filter_le_one _ _, fun _ => range_filter_one _ _ hl0⟩

theorem buildPartition_no_empty (lv : List (String × Nat)) :
    ∀ g ∈ buildPartition lv, g ≠ [] := by
  intro g hg
  unfold buildPartition at hg
  have hp := (List.mem_filter.mp hg).2
  intro hnil
  subst hnil
  simp at hp

/-! Facts about one candidate case of the violation scan. -/

theorem mkViolation_fields (pm : PackageMap) (part : List (List String)) (strict : Bool)
    (i : Nat) (pkg target : String) (a : Nat) (v : Violation)
    (h : mkViolation pm part strict i pkg target a = some v) :
    v.fromLevel = i ∧ v.toLevel = a ∧
      v.fromPath = trimQuotes (findPkg pm pkg).path ∧ v.toPath = trimQuotes target := by
  cases strict with
  | true =>
    simp only [mkViolation] at h
    split at h
    · obtain rfl := Option.some_inj.mp h
      exact ⟨rfl, rfl, rfl, rfl⟩
    · exact Option.noConfusion h
  | false =>
    simp only [mkViolation] at h
    split at h
    · obtain rfl := Option.some_inj.mp h
      exact ⟨rfl, rfl, rfl, rfl⟩
    · exact Option.noConfusion h

theorem mkViolation_false_isSome (pm : PackageMap) (part : List (List String))
    (i : Nat) (pkg target : String) (a : Nat) :
    (mkViolation pm part false i pkg target a).isSome ↔
      (target ∈ part.getD a [] ∧ i ≤ a) := by
  simp only [mkViolation]
  split
  · rename_i hc
    simpa using hc
  · rename_i hc
    simpa using hc

theorem mkViolation_false_shape (pm : PackageMap) (part : List (List String))
    (i : Nat) (pkg target : String) (a : Nat) (v : Violation)
    (h : mkViolation pm part false i pkg target a = some v) :
    v.message = lenientMessage ∧ i ≤ a := by
  simp only [mkViolation] at h
  split at h
  · rename_i hc
    obtain rfl := Option.some_inj.mp h
    exact ⟨rfl, hc.2⟩
  · exact Option.noConfusion h

theorem mem_descRange (n a : Nat) : a ∈ descRange n ↔ a < n := by
  unfold descRange
  rw [List.mem_reverse, List.mem_range]

/-! Provenance of violations: everything CheckLevels returns comes from a
non-entry-point importer of some scanned level and a successful mkViolation. -/

theorem scanTarget_mem (pm : PackageMap) (part : List (List String)) (strict : Bool)
    (i : Nat) (pkg target : String) (as : List Nat) (acc : List Violation) (v : Violation)
    (hv : v ∈ scanTarget pm part strict i pkg target as acc) :
    v ∈ acc ∨ ∃ a ∈ as, mkViolation pm part strict i pkg target a = some v := by
  induction as generalizing acc with
  | nil => exact Or.inl (by simpa [scanTarget] using hv)
  | cons a rest ih =>
    rcases hmk : mkViolation pm part strict i pkg target a with _ | w
    · simp only [scanTarget, hmk] at hv
      rcases ih acc hv with h | ⟨b, hb, hb2⟩
      · exact Or.inl h
      · exact Or.inr ⟨b, List.mem_cons_of_mem _ hb, hb2⟩
    · simp only [scanTarget, hmk] at hv
      by_cases hd : (acc.any (fun r => r.format == w.format)) = true
      · rw [if_pos hd] at hv
        rcases ih acc hv with h | ⟨b, hb, hb2⟩
        · exact Or.inl h
        · exact Or.inr ⟨b, List.mem_cons_of_mem _ hb, hb2⟩
      · rw [if_neg hd] at hv
        rcases List.mem_append.mp hv with h | h
        · exact Or.inl h
        · have : v = w := by simpa using h
          exact Or.inr ⟨a, List.mem_cons_self _ _, this ▸ hmk⟩

theorem checkImports_mem (pm : PackageMap) (part : List (List String)) (strict : Bool)
    (i : Nat) (pkg : String) (targets : List String) (acc : List Violation) (v : Violation)
    (hv : v ∈ checkImports pm part strict i pkg targets acc) :
    v ∈ acc ∨ ∃ target ∈ targets, ∃ a, a ≤ i ∧
      mkViolation pm part strict i pkg target a = some v := by
  induction targets generalizing acc with
  | nil => exact Or.inl (by simpa [checkImports] using hv)
  | cons t rest ih =>
    simp only [checkImports] at hv
    rcases ih _ hv with h | ⟨target, ht, a, ha, h2⟩
    · rcases scanTarget_mem pm part strict i pkg t _ _ _ h with h3 | ⟨a, ha, h4⟩
      · exact Or.inl h3
      · exact Or.inr ⟨t, List.mem_cons_self _ _, a,
          Nat.lt_succ_iff.mp ((mem_descRange _ _).mp ha), h4⟩
    · exact Or.inr ⟨target, List.mem_cons_of_mem _ ht, a, ha, h2⟩

theorem checkPkgs_mem (pm : PackageMap) (part : List (List String)) (strict : Bool)
    (i : Nat) (pkgs : List String) (acc : List Violation) (v : Violation)
    (hv : v ∈ checkPkgs pm part strict i pkgs acc) :
    v ∈ acc ∨ ∃ pkg ∈ pkgs, isEntryPointPackage pkg = false ∧
      ∃ target ∈ (findPkg pm pkg).imports, ∃ a, a ≤ i ∧
        mkViolation pm part strict i pkg target a = some v := by
  induction pkgs generalizing acc with
  | nil => exact Or.inl (by simpa [checkPkgs] using hv)
  | cons pkg rest ih =>
    by_cases he : isEntryPointPackage pkg = true
    · simp only [checkPkgs, if_pos he] at hv
      rcases ih _ hv with h | ⟨q, hq, hq2, h2⟩
      · exact Or.inl h
      · exact Or.inr ⟨q, List.mem_cons_of_mem _ hq, hq2, h2⟩
    · simp only [checkPkgs, if_neg he] at hv
      rcases ih _ hv with h | ⟨q, hq, hq2, h2⟩
      · rcases checkImports_mem pm part strict i pkg _ _ _ h with h3 | ⟨target, ht, a, ha, h4⟩
        · exact Or.inl h3
        · exact Or.inr ⟨pkg, List.mem_cons_self _ _, Bool.not_eq_true _ ▸ he,
            target, ht, a, ha, h4⟩
      · exact Or.inr ⟨q, List.mem_cons_of_mem _ hq, hq2, h2⟩

theorem checkLoop_mem (pm : PackageMap) (part : List (List String)) (strict : Bool)
    (is : List Nat) (acc : List Violation) (v : Violation)
    (hv : v ∈ checkLoop pm part strict is acc) :
    v ∈ acc ∨ ∃ i ∈ is, ∃ pkg ∈ part.getD i [], isEntryPointPackage pkg = false ∧
      ∃ target ∈ (findPkg pm pkg).imports, ∃ a, a ≤ i ∧
        mkViolation pm part strict i pkg target a = some v := by
  induction is generalizing acc with
  | nil => exact Or.inl (by simpa [checkLoop] using hv)
  | cons i rest ih =>
    simp only [checkLoop] at hv
    rcases ih _ hv with h | ⟨j, hj, h2⟩
    · rcases checkPkgs_mem pm part strict i _ _ _ h with h3 | ⟨pkg, hp, hp2, h4⟩
      · exact Or.inl h3
      · exact Or.inr ⟨i, List.mem_cons_self _ _, pkg, hp, hp2, h4⟩
    · exact Or.inr ⟨j, List.mem_cons_of_mem _ hj, h2⟩

theorem CheckLevels_mem (pm : PackageMap) (part : List (List String)) (strict : Bool)
    (v : Violation) (hv : v ∈ CheckLevels pm part strict) :
    ∃ i, i < part.length ∧ ∃ pkg ∈ part.getD i [], isEntryPointPackage pkg = false ∧
      ∃ target ∈ (findPkg pm pkg).imports, ∃ a, a ≤ i ∧
        mkViolation pm part strict i pkg target a = some v := by
  rcases checkLoop_mem pm part strict _ _ _ hv with h | ⟨i, hi, h2⟩
  · simp at h
  · exact ⟨i, (mem_descRange _ _).mp hi, h2⟩

/-! Distinct formatted messages: the dedup check guards every append. -/

theorem any_format_false (acc : List Violation) (v : Violation)
    (h : acc.any (fun r => r.format == v.format) = false) :
    ∀ x ∈ acc, x.format ≠ v.format := by
  intro x hx heq
  have htrue : acc.any (fun r => r.format == v.format) = true :=
    List.any_eq_true.mpr ⟨x, hx, by rw [heq]; exact beq_self_eq_true _⟩
  rw [h] at htrue
  cases htrue

theorem scanTarget_distinct (pm : PackageMap) (part : List (List String)) (strict : Bool)
    (i : Nat) (pkg target : String) (as : List Nat) (acc : List Violation)
    (h : List.Pairwise (fun v w : Violation => v.format ≠ w.format) acc) :
    List.Pairwise (fun v w : Violation => v.format ≠ w.format)
      (scanTarget pm part strict i pkg target as acc) := by
  induction as generalizing acc with
  | nil => simpa [scanTarget] using h
  | cons a rest ih =>
    rcases hmk : mkViolation pm part strict i pkg target a with _ | w
    · simp only [scanTarget, hmk]
      exact ih _ h
    · simp only [scanTarget, hmk]
      by_cases hd : (acc.any (fun r => r.format == w.format)) = true
      · rw [if_pos hd]
        exact ih _ h
      · rw [if_neg hd]
        rw [List.pairwise_append]
        refine ⟨h, List.pairwise_singleton _ _, ?_⟩
        intro x hx y hy
        have hyw : y = w := by simpa using hy
        rw [hyw]
        exact any_format_false acc w (Bool.not_eq_true _ ▸ hd) x hx

theorem checkImports_distinct (pm : PackageMap) (part : List (List String)) (strict : Bool)
    (i : Nat) (pkg : String) (targets : List String) (acc : List Violation)
    (h : List.Pairwise (fun v w : Violation => v.format ≠ w.format) acc) :
    List.Pairwise (fun v w : Violation => v.format ≠ w.format)
      (checkImports pm part strict i pkg targets acc) := by
  induction targets generalizing acc with
  | nil => simpa [checkImports] using h
  | cons t rest ih =>
    simp only [checkImports]
    exact ih _ (scanTarget_distinct pm part strict i pkg t _ _ h)

theorem checkPkgs_distinct (pm : PackageMap) (part : List (List String)) (strict : Bool)
    (i : Nat) (pkgs : List String) (acc : List Violation)
    (h : List.Pairwise (fun v w : Violation => v.format ≠ w.format) acc) :
    List.Pairwise (fun v w : Violation => v.format ≠ w.format)
      (checkPkgs pm part strict i pkgs acc) := by
  induction pkgs generalizing acc with
  | nil => simpa [checkPkgs] using h
  | cons pkg rest ih =>
    by_cases he : isEntryPointPackage pkg = true
    · simp only [checkPkgs, if_pos he]
      exact ih _ h
    · simp only [checkPkgs, if_neg he]
      exact ih _ (checkImports_distinct pm part strict i pkg _ _ h)

theorem checkLoop_distinct (pm : PackageMap) (part : List (List String)) (strict : Bool)
    (is : List Nat) (acc : List Violation)
    (h : List.Pairwise (fun v w : Violation => v.format ≠ w.format) acc) :
    List.Pairwise (fun v w : Violation => v.format ≠ w.format)
      (checkLoop pm part strict is acc) := by
  induction is generalizing acc with
  | nil => simpa [checkLoop] using h
  | cons i rest ih =>
    simp only [checkLoop]
    exact ih _ (checkPkgs_distinct pm part strict i _ _ h)

/-! Violations are collected deepest importer level first. -/

theorem scanTarget_sorted (pm : PackageMap) (part : List (List String)) (strict : Bool)
    (i : Nat) (pkg target : String) (as : List Nat) (acc : List Violation)
    (hs : List.Pairwise (fun v w : Violation => w.fromLevel ≤ v.fromLevel) acc)
    (hb : ∀ w ∈ acc, i ≤ w.fromLevel) :
    List.Pairwise (fun v w : Violation => w.fromLevel ≤ v.fromLevel)
        (scanTarget pm part strict i pkg target as acc) ∧
      ∀ w ∈ scanTarget pm part strict i pkg target as acc, i ≤ w.fromLevel := by
  induction as generalizing acc with
  | nil => exact ⟨by simpa [scanTarget] using hs, by simpa [scanTarget] using hb⟩
  | cons a rest ih =>
    rcases hmk : mkViolation pm part strict i pkg target a with _ | w
    · simp only [scanTarget, hmk]
      exact ih _ hs hb
    · simp only [scanTarget, hmk]
      by_cases hd : (acc.any (fun r => r.format == w.format)) = true
      · rw [if_pos hd]
        exact ih _ hs hb
      · rw [if_neg hd]
        have hw : w.fromLevel = i := (mkViolation_fields pm part strict i pkg target a w hmk).1
        constructor
        · rw [List.pairwise_append]
          refine ⟨hs, List.pairwise_singleton _ _, ?_⟩
          intro x hx y hy
          have : y = w := by simpa using hy
          subst this
          rw [hw]
          exact hb x hx
        · intro y hy
          rcases List.mem_append.mp hy with h1 | h1
          · exact hb y h1
          · have : y = w := by simpa using h1
            subst this
            rw [hw]

theorem checkImports_sorted (pm : PackageMap) (part : List (List String)) (strict : Bool)
    (i : Nat) (pkg : String) (targets : List String) (acc : List Violation)
    (hs : List.Pairwise (fun v w : Violation => w.fromLevel ≤ v.fromLevel) acc)
    (hb : ∀ w ∈ acc, i ≤ w.fromLevel) :
    List.Pairwise (fun v w : Violation => w.fromLevel ≤ v.fromLevel)
        (checkImports pm part strict i pkg targets acc) ∧
      ∀ w ∈ checkImports pm part strict i pkg targets acc, i ≤ w.fromLevel := by
  induction targets generalizing acc with
  | nil => exact ⟨by simpa [checkImports] using hs, by simpa [checkImports] using hb⟩
  | cons t rest ih =>
    simp only [checkImports]
    obtain ⟨h1, h2⟩ := scanTarget_sorted pm part strict i pkg t (descRange (i + 1)) acc hs hb
    exact ih _ h1 h2

theorem checkPkgs_sorted (pm : PackageMap) (part : List (List String)) (strict : Bool)
    (i : Nat) (pkgs : List String) (acc : List Violation)
    (hs : List.Pairwise (fun v w : Violation => w.fromLevel ≤ v.fromLevel) acc)
    (hb : ∀ w ∈ acc, i ≤ w.fromLevel) :
    List.Pairwise (fun v w : Violation => w.fromLevel ≤ v.fromLevel)
        (checkPkgs pm part strict i pkgs acc) ∧
      ∀ w ∈ checkPkgs pm part strict i pkgs acc, i ≤ w.fromLevel := by
  induction pkgs generalizing acc with
  | nil => exact ⟨by simpa [checkPkgs] using hs, by simpa [checkPkgs] using hb⟩
  | cons pkg rest ih =>
    by_cases he : isEntryPointPackage pkg = true
    · simp only [checkPkgs, if_pos he]
      exact ih _ hs hb
    · simp only [checkPkgs, if_neg he]
      obtain ⟨h1, h2⟩ := checkImports_sorted pm part strict i pkg _ acc hs hb
      exact ih _ h1 h2

theorem checkLoop_sorted (pm : PackageMap) (part : List (List String)) (strict : Bool)
    (is : List Nat) (acc : List Violation)
    (hdesc : List.Pairwise (fun x y : Nat => y ≤ x) is)
    (hs : List.Pairwise (fun v w : Violation => w.fromLevel ≤ v.fromLevel) acc)
    (hb : ∀ j ∈ is, ∀ w ∈ acc, j ≤ w.fromLevel) :
    List.Pairwise (fun v w : Violation => w.fromLevel ≤ v.fromLevel)
      (checkLoop pm part strict is acc) := by
  induction is generalizing acc with
  | nil => simpa [checkLoop] using hs
  | cons i rest ih =>
    simp only [checkLoop]
    obtain ⟨h1, h2⟩ := checkPkgs_sorted pm part strict i (part.getD i []) acc hs
      (hb i (List.mem_cons_self _ _))
    refine ih _ (List.Pairwise.sublist (List.sublist_cons_self _ _) hdesc) h1 ?_
    intro j hj w hw
    have hji : j ≤ i := (List.pairwise_cons.mp hdesc).1 j hj
    exact le_trans hji (h2 w hw)

theorem pairwise_le_range (n : Nat) : List.Pairwise (fun a b : Nat => a ≤ b) (List.range n) := by
  induction n with
  | zero => simp
  | succ k ih =>
    rw [List.range_succ]
    apply List.pairwise_append.mpr
    refine ⟨ih, List.pairwise_singleton _ _, ?_⟩
    intro a ha b hb
    have : b = k := by simpa using hb
    subst this
    exact Nat.le_of_lt (List.mem_range.mp ha)

theorem pairwise_descRange (n : Nat) :
    List.Pairwise (fun x y : Nat => y ≤ x) (descRange n) := by
  unfold descRange
  rw [List.pairwise_reverse]
  exact pairwise_le_range n

/-! CheckLevels on the empty package map reports nothing: every lookup yields
the zero value, whose import list is empty. -/

theorem checkPkgs_empty_map (part : List (List String)) (strict : Bool) (i : Nat)
    (pkgs : List String) (acc : List Violation) :
    checkPkgs [] part strict i pkgs acc = acc := by
  induction pkgs generalizing acc with
  | nil => rfl
  | cons pkg rest ih =>
    by_cases he : isEntryPointPackage pkg = true
    · simp only [checkPkgs, if_pos he]
      exact ih _
    · simp only [checkPkgs, if_neg he]
      have : findPkg [] pkg = emptyInfo := rfl
      rw [this]
      exact ih _

theorem checkLoop_empty_map (part : List (List String)) (strict : Bool)
    (is : List Nat) (acc : List Violation) :
    checkLoop [] part strict is acc = acc := by
  induction is generalizing acc with
  | nil => rfl
  | cons i rest ih =>
    simp only [checkLoop, checkPkgs_empty_map]
    exact ih _

/-! Root detection is independent of the enumeration order of the map. -/

theorem mentionedInImports_perm (m₁ m₂ : PackageMap) (h : m₁.Perm m₂) (path : String) :
    mentionedInImports m₁ path = mentionedInImports m₂ path := by
  unfold mentionedInImports
  rcases h1 : m₁.any (fun kv => decide (path ∈ kv.2.imports)) with _ | _
  · rcases h2 : m₂.any (fun kv => decide (path ∈ kv.2.imports)) with _ | _
    · rfl
    · obtain ⟨kv, hkv, hkv2⟩ := List.any_eq_true.mp h2
      have : m₁.any (fun kv => decide (path ∈ kv.2.imports)) = true :=
        List.any_eq_true.mpr ⟨kv, h.mem_iff.mpr hkv, hkv2⟩
      rw [h1] at this
      cases this
  · obtain ⟨kv, hkv, hkv2⟩ := List.any_eq_true.mp h1
    have : m₂.any (fun kv => decide (path ∈ kv.2.imports)) = true :=
      List.any_eq_true.mpr ⟨kv, h.mem_iff.mp hkv, hkv2⟩
    rw [this]

theorem rootPaths_perm (m₁ m₂ : PackageMap) (h : m₁.Perm m₂) :
    (rootPaths m₁).Perm (rootPaths m₂) := by
  unfold rootPaths
  have hfe : m₁.filter (fun kv => !(mentionedInImports m₁ kv.2.path)) =
      m₁.filter (fun kv => !(mentionedInImports m₂ kv.2.path)) := by
    apply List.filter_congr
    intro kv _
    rw [mentionedInImports_perm m₁ m₂ h]
  rw [hfe]
  exact (h.filter _).map _

theorem findPkg_cases (pm : PackageMap) (p : String) :
    findPkg pm p = emptyInfo ∨ (p, findPkg pm p) ∈ pm := by
  induction pm with
  | nil => exact Or.inl rfl
  | cons kv rest ih =>
    obtain ⟨k, info⟩ := kv
    by_cases hk : k = p
    · subst hk
      exact Or.inr (by simp [findPkg])
    · rcases ih with h | h
      · exact Or.inl (by simpa [findPkg, hk] using h)
      · exact Or.inr (List.mem_cons_of_mem _ (by simpa [findPkg, hk] using h))

/-- Claim C1 counterexample: in the two-package graph cex1Map with the import
edge m/a/b -> m/x (both keys), SetUniqueLevels places the importer m/a/b at
level index 1 (its structural depth 2 raised it past the BFS level 0) and the
target m/x at level index 0, so level(q) >= level(p) + 1 fails: 0 < 1 + 1. -/
theorem c1_edge_inequality_cex :
    keysOf cex1Map = ["m/a/b", "m/x"] ∧
    "m/x" ∈ (findPkg cex1Map "m/a/b").imports ∧
    getLevel? (adjustedLevels cex1Map) "m/a/b" = some 2 ∧
    getLevel? (adjustedLevels cex1Map) "m/x" = some 1 ∧
    levelIdx? (SetUniqueLevels cex1Map) "m/a/b" = some 1 ∧
    levelIdx? (SetUniqueLevels cex1Map) "m/x" = some 0 ∧
    ¬ (2 ≤ 1) ∧ ¬ (1 + 1 ≤ 0) := by decide

/-- Claim C1, amended: the structural-depth override only ever raises levels —
every package keeps a final level at least its BFS-provisional level.  The
per-edge inequality level(q) >= level(p)+1 of the original claim does not hold:
the override may raise level(p) without touching level(q), and the BFS does not
re-enqueue an already visited package when its level later increases. -/
theorem c1_amended_override_only_raises (m : PackageMap) (p : String) (v : Nat)
    (h : getLevel? (bfsLevels m) p = some v) :
    ∃ w, getLevel? (adjustedLevels m) p = some w ∧ v ≤ w := by
  unfold adjustedLevels
  rw [getLevel?_adjustLevels, h]
  refine ⟨if getPackageDepth p > v then getPackageDepth p else v, rfl, ?_⟩
  split <;> omega

/-- Witness for C1 amended at the concrete graph cex1Map. -/
theorem c1_amended_witness :
    ∃ w, getLevel? (adjustedLevels cex1Map) "m/x" = some w ∧ 1 ≤ w :=
  c1_amended_override_only_raises cex1Map "m/x" 1 (by decide)

/-- Claim C2 counterexample: in the two-package import cycle cycMap no package
is a root, the BFS assigns no levels, and SetUniqueLevels returns the empty
partition — the keys m/a and m/b appear in zero level sets, not exactly one. -/
theorem c2_coverage_cex :
    keysOf cycMap = ["m/a", "m/b"] ∧
    SetUniqueLevels cycMap = [] ∧
    levelsContaining (SetUniqueLevels cycMap) "m/a" = 0 ∧
    levelsContaining (SetUniqueLevels cycMap) "m/b" = 0 := by decide

/-- Claim C2, amended: no path appears in more than one level set of
SetUniqueLevels, every package that received a level (every root and every
package reached by the BFS, dangling imports included) appears in exactly one
level set, and no empty level set survives; keys unreachable from every root
(possible only with an import cycle) are dropped from the partition. -/
theorem c2_amended_partition_unique (m : PackageMap) (p : String) :
    levelsContaining (SetUniqueLevels m) p ≤ 1 ∧
      ((getLevel? (adjustedLevels m) p).isSome →
        levelsContaining (SetUniqueLevels m) p = 1) ∧
      ∀ g ∈ SetUniqueLevels m, g ≠ [] := by
  unfold SetUniqueLevels
  have h := levelsContaining_buildPartition (adjustedLevels m) p (adjustedLevels_nodupKeys m)
  exact ⟨h.1, h.2, buildPartition_no_empty _⟩

/-- Witness for C2 amended at the concrete graph scenMap. -/
theorem c2_amended_witness :
    levelsContaining (SetUniqueLevels scenMap) "mod/util" = 1 :=
  (c2_amended_partition_unique scenMap "mod/util").2.1 (by decide)

/-- Claim C3 counterexample: on the scenario graph and the partition its
premise describes, strict-mode CheckLevels reports zero violations, not
exactly one — mod/main is an entry-point package and is skipped. -/
theorem c3_scenario_cex :
    (CheckLevels scenMap scenPartition true).length = 0 := by decide

/-- Claim C3, amended: for the graph of scenario C, CheckLevels reports no
violation in either mode — mod/main is an entry-point package (skipped as an
importer) and mod/util imports nothing; moreover with these paths the
structural override cannot force mod/util to level 2: SetUniqueLevels puts
both packages at a single shared level. -/
theorem c3_amended_no_violations :
    CheckLevels scenMap scenPartition true = [] ∧
    CheckLevels scenMap scenPartition false = [] ∧
    isEntryPointPackage "mod/main" = true ∧
    SetUniqueLevels scenMap = [["mod/main", "mod/util"]] := by decide

/-- Claim C4: in lenient mode the scan over a in [0, i] flags exactly the case
where the target sits at the importer's own level index (the Go condition
`i <= a` with a <= i), with the same-level message; consequently every lenient
violation has toLevel = fromLevel, so an importer at a deeper level importing a
strictly shallower target is never flagged. -/
theorem c4_lenient_same_level_only (pm : PackageMap) (part : List (List String))
    (pkg target : String) (i a : Nat) (h : a ≤ i) :
    ((mkViolation pm part false i pkg target a).isSome ↔
      (target ∈ part.getD a [] ∧ a = i)) ∧
    ∀ v ∈ CheckLevels pm part false,
      v.message = lenientMessage ∧ v.toLevel = v.fromLevel := by
  constructor
  · rw [mkViolation_false_isSome]
    constructor
    · rintro ⟨hm, hle⟩
      exact ⟨hm, Nat.le_antisymm h hle⟩
    · rintro ⟨hm, rfl⟩
      exact ⟨hm, Nat.le_refl _⟩
  · intro v hv
    obtain ⟨i', _, pkg', _, _, target', _, a', ha', hmk⟩ := CheckLevels_mem pm part false v hv
    obtain ⟨hmsg, hle⟩ := mkViolation_false_shape _ _ _ _ _ _ _ hmk
    obtain ⟨hfl, htl, _, _⟩ := mkViolation_fields _ _ _ _ _ _ _ _ hmk
    refine ⟨hmsg, ?_⟩
    rw [hfl, htl]
    omega

/-- Witness for C4 at a concrete input. -/
theorem c4_lenient_witness :
    (0 ≤ 0) ∧
    (((mkViolation [] [] false 0 "m/p" "m/q" 0).isSome ↔
        ("m/q" ∈ ([] : List (List String)).getD 0 [] ∧ 0 = 0)) ∧
      ∀ v ∈ CheckLevels [] [] false,
        v.message = lenientMessage ∧ v.toLevel = v.fromLevel) :=
  ⟨by decide, c4_lenient_same_level_only [] [] "m/p" "m/q" 0 0 (by decide)⟩

/-- Claim C5 counterexample: two enumeration orders of the same package map
(permMapA and permMapB differ only by swapping the first two entries) produce
LevelPartitions of different length — the BFS does not re-enqueue visited
packages whose level increases, so processing order changes final levels. -/
theorem c5_order_dependence_cex :
    permMapA.Perm permMapB ∧
      (SetUniqueLevels permMapA).length = 2 ∧
      (SetUniqueLevels permMapB).length = 3 := by
  refine ⟨?_, by decide, by decide⟩
  show (permEntryR1 :: permEntryR2 :: permRest).Perm (permEntryR2 :: permEntryR1 :: permRest)
  exact List.Perm.swap permEntryR2 permEntryR1 permRest

/-- Claim C5, amended: SetUniqueLevels is a pure function of the
enumeration-ordered map, and its root detection is enumeration-order
independent (permuted maps have permuted root sets); but the final
LevelPartition can differ between two enumeration orders of the same map,
because a visited package is not re-enqueued when its level increases. -/
theorem c5_amended_roots_perm_invariant (m₁ m₂ : PackageMap) (h : m₁.Perm m₂) :
    (rootPaths m₁).Perm (rootPaths m₂) :=
  rootPaths_perm m₁ m₂ h

/-- Witness for C5 amended at the two concrete enumeration orders. -/
theorem c5_amended_witness : (rootPaths permMapA).Perm (rootPaths permMapB) :=
  c5_amended_roots_perm_invariant permMapA permMapB
    (List.Perm.swap permEntryR2 permEntryR1 permRest)

/-- Claim C6 counterexample: the dangling import m/b (not a key of danglingMap)
is assigned a level, appears in the returned LevelPartition, and is named as
the toPath of a reported violation — it is not ignored by level assignment or
violation detection. -/
theorem c6_dangling_in_partition_cex :
    keysOf danglingMap = ["m/a"] ∧
    getLevel? (adjustedLevels danglingMap) "m/b" = some 1 ∧
    SetUniqueLevels danglingMap = [["m/a", "m/b"]] ∧
    levelsContaining (SetUniqueLevels danglingMap) "m/b" = 1 := by decide

/-- Claim C6, amended: a dangling import never crashes the computation (map
reads of missing keys yield the zero value and the BFS and detector return
normally), but it is assigned a level, included in the returned
LevelPartition, and can appear as the toPath of a reported violation. -/
theorem c6_amended_dangling_behavior :
    keysOf danglingMap = ["m/a"] ∧
    getLevel? (adjustedLevels danglingMap) "m/b" = some 1 ∧
    SetUniqueLevels danglingMap = [["m/a", "m/b"]] ∧
    (CheckLevels danglingMap (SetUniqueLevels danglingMap) false).map Violation.toPath
      = ["m/b"] := by decide

/-- Claim C7 counterexample: the code appends a fresh violation and then stops
scanning shallower levels (the break sits in the fresh branch), while the
claim's rule (stop only on a duplicate, keep scanning after an append) would
also report the level-0 case: on dupScanPartition the code returns one
violation (toLevel 1) where the claimed rule returns two (toLevels 1 and 0). -/
theorem c7_dedup_break_cex :
    (CheckLevels dupScanMap dupScanPartition true).map Violation.toLevel = [1] ∧
      (CheckLevelsClaim dupScanMap dupScanPartition true).map Violation.toLevel = [1, 0] := by
  exact ⟨by decide, by decide⟩

/-- Claim C7, amended: CheckLevels compares each candidate's fully formatted
text against all previously recorded violations; a duplicate is skipped (and
the scan continues with shallower levels), while appending a fresh violation
stops the scan for that (pkg, target) pair — so the returned list carries
pairwise distinct formatted message texts. -/
theorem c7_amended_distinct_messages (pm : PackageMap) (part : List (List String))
    (strict : Bool) :
    List.Pairwise (fun v w : Violation => v.format ≠ w.format)
      (CheckLevels pm part strict) := by
  unfold CheckLevels
  exact checkLoop_distinct pm part strict _ [] List.Pairwise.nil

/-- Claim C8 counterexample: the entry-point exemption tests the partition
entry string, but the violation's fromPath is taken from the node's Path
field; with a node whose Path is the entry-point path m/main stored under the
non-entry key m/x, CheckLevels reports a violation whose fromPath is an
entry-point package. -/
theorem c8_entry_fromPath_cex :
    isEntryPointPackage "m/x" = false ∧
    isEntryPointPackage "m/main" = true ∧
    (CheckLevels mismatchMap mismatchPartition false).map Violation.fromPath = ["m/main"] := by
  decide

/-- Claim C8, amended: no partition entry satisfying isEntryPointPackage is
ever scanned as an importer, so whenever every node's Path field equals its
map key (as the graph builder guarantees), no entry-point package appears as
the fromPath of any violation, in either mode, for any partition. -/
theorem c8_amended_entry_guard (pm : PackageMap) (part : List (List String)) (strict : Bool)
    (hpk : ∀ kv ∈ pm, kv.2.path = kv.1) :
    ∀ v ∈ CheckLevels pm part strict, isEntryPointPackage v.fromPath = false := by
  intro v hv
  obtain ⟨i, _, pkg, _, hentry, target, _, a, _, hmk⟩ := CheckLevels_mem pm part strict v hv
  obtain ⟨_, _, hfrom, _⟩ := mkViolation_fields _ _ _ _ _ _ _ _ hmk
  rw [hfrom]
  rcases findPkg_cases pm pkg with hc | hc
  · rw [hc]
    decide
  · have hpath : (findPkg pm pkg).path = pkg := hpk _ hc
    rw [hpath, isEntryPointPackage_trim]
    exact hentry

/-- Witness for C8 amended at the concrete graph danglingMap. -/
theorem c8_amended_witness :
    (∀ kv ∈ danglingMap, kv.2.path = kv.1) ∧
      ∀ v ∈ CheckLevels danglingMap (SetUniqueLevels danglingMap) false,
        isEntryPointPackage v.fromPath = false :=
  ⟨by decide, c8_amended_entry_guard danglingMap (SetUniqueLevels danglingMap) false (by decide)⟩

/-- Claim C9: on every finite package map — cyclic imports included — the BFS
of SetUniqueLevels runs to completion within its fuel (the queue empties and
extra fuel changes nothing), the empty graph yields the empty partition, and
CheckLevels on the empty graph yields the empty violation list for every
partition and mode. -/
theorem c9_termination_and_empty (m : PackageMap) (extra : Nat) :
    (runBfs m).queue = [] ∧
      bfsAux m (bfsFuel m + extra) (initState m) = runBfs m ∧
      SetUniqueLevels ([] : PackageMap) = [] ∧
      ∀ part strict, CheckLevels ([] : PackageMap) part strict = [] := by
  have hle : (initState m).queue.length +
      countFresh (importsUniverse m) (initState m).visited ≤ bfsFuel m := by
    unfold bfsFuel countFresh
    have := List.length_filter_le (fun x => decide (¬ x ∈ (initState m).visited))
      (importsUniverse m)
    omega
  obtain ⟨h1, h2⟩ := bfsAux_complete m (bfsFuel m) (initState m) hle
  refine ⟨h1, h2 extra, by decide, ?_⟩
  intro part strict
  unfold CheckLevels
  exact checkLoop_empty_map part strict _ []

/-- Claim C10: CheckLevels iterates level indices deepest first and every
appended violation carries the current index as fromLevel, so the returned
list is sorted by importer level, deepest first: any earlier violation has a
fromLevel at least that of any later one. -/
theorem c10_violations_sorted_desc (pm : PackageMap) (part : List (List String))
    (strict : Bool) :
    List.Pairwise (fun v w : Violation => w.fromLevel ≤ v.fromLevel)
      (CheckLevels pm part strict) := by
  unfold CheckLevels
  exact checkLoop_sorted pm part strict _ [] (pairwise_descRange _) List.Pairwise.nil
    (by intro j hj w hw; cases hw)
